import Mathlib

/- Shallow embedding of the algorithmic core of the iocraft man-page picker:
   the SGR tokenizer (find_sgr) and styled-run builder (escape_chars_to_styling)
   of examples/picker.rs, the substring match highlighter (matches), the
   results-list navigation and scroll-offset arithmetic, and the ANSI strip
   filter of packages/iocraft/src/strip_ansi.rs.

   Strings are modelled as lists of characters (the Rust code iterates chars;
   byte indices produced by str::find always sit on character boundaries, so
   the byte-level slicing of the source coincides with character-level
   splitting).  usize / isize are modelled as Nat / Int, with the 64-bit
   overflow check made explicit where the source can overflow.  A Rust panic
   is modelled as the value none of an Option-typed result.  Loops whose
   termination rests on consuming at least one input character per iteration
   are written with an explicit fuel argument; every entry point passes
   fuel = input length + 1, which is always sufficient, keeping all
   definitions kernel-computable. -/

/-- Modelled from the spec: the color attribute of iocraft's MixedTextContent
(the type itself lives in the iocraft package, outside src/); only the
variants mentioned by picker.rs are included. -/
inductive Color where
  | Red
  | Cyan
  | DarkGrey
  | Reset
deriving DecidableEq, Repr

/-- Modelled from the spec: the font-weight attribute of MixedTextContent. -/
inductive Weight where
  | Normal
  | Bold
deriving DecidableEq, Repr

/-- Modelled from the spec: the text-decoration attribute of MixedTextContent. -/
inductive TextDecoration where
  | None
  | Underline
deriving DecidableEq, Repr

/-- Modelled from the spec: iocraft's MixedTextContent as used by picker.rs, a
piece of text with optional color, weight and decoration attributes.  It plays
both the role of the spec's StyledRun (text, bold, underline) and of its
MatchSpan (text, highlighted). -/
structure MixedTextContent where
  text : List Char
  color : Option Color := none
  weight : Weight := Weight.Normal
  decoration : TextDecoration := TextDecoration.None
deriving DecidableEq, Repr

/-- MixedTextContent::new(text): plain text with default attributes. -/
def MixedTextContent.new (t : List Char) : MixedTextContent :=
  { text := t }

/-- the .color(c) builder method of MixedTextContent. -/
def MixedTextContent.withColor (m : MixedTextContent) (c : Color) : MixedTextContent :=
  { m with color := some c }

/-- the .weight(w) builder method of MixedTextContent. -/
def MixedTextContent.withWeight (m : MixedTextContent) (w : Weight) : MixedTextContent :=
  { m with weight := w }

/-- the .decoration(d) builder method of MixedTextContent. -/
def MixedTextContent.withDecoration (m : MixedTextContent) (d : TextDecoration) : MixedTextContent :=
  { m with decoration := d }

/-- a span counts as highlighted when it carries the red color and bold weight
that matches() attaches to an occurrence of the query (spec: MatchSpan's
highlighted flag). -/
def MixedTextContent.highlighted (m : MixedTextContent) : Bool :=
  decide (m.color = some Color.Red) && decide (m.weight = Weight.Bold)

/-- concatenation of the text fields of a list of runs, in order. -/
def concatTexts (runs : List MixedTextContent) : List Char :=
  runs.foldr (fun r acc => r.text ++ acc) []

/- ------------------------------------------------------------------ -/
/-  find_sgr and escape_chars_to_styling (examples/picker.rs)          -/
/- ------------------------------------------------------------------ -/

/-- value of a run of ASCII digits, accumulated the way
str::parse::<usize> accumulates it. -/
def digitsToNat (s : List Char) : Nat :=
  s.foldl (fun a c => a * 10 + (c.toNat - 48)) 0

/-- str::parse::<usize> as called by find_sgr: an optional leading plus sign,
then a non-empty run of ASCII digits whose value fits in 64 bits; anything
else is an error, which find_sgr unwraps (a panic, modelled as none). -/
def parseUsize (s : List Char) : Option Nat :=
  let t := if s.head? = some '+' then s.tail else s
  if t ≠ [] ∧ t.all Char.isDigit ∧ digitsToNat t < 2 ^ 64 then some (digitsToNat t)
  else none

/-- find_sgr of examples/picker.rs.  The Rust function works on a peekable
character iterator passed by reference; here it takes the remaining stream and
returns, unless the digit.parse().unwrap() panics (outer none), the Rust
return value paired with the stream it leaves behind:
  * peek fails or is not the escape character: no sequence, nothing consumed;
  * the escape character is consumed; a missing or non-bracket follower makes
    the match fail with the follower also consumed;
  * after the bracket, if the stream is empty or the very next character is
    the terminator e, it returns Some(0) WITHOUT consuming the terminator
    (the source only peeks at it);
  * otherwise take_while collects every character up to and including the
    first terminator (the failing element of a by-reference take_while is
    consumed and dropped) and the collected run is parsed as usize. -/
def find_sgr (e : Char) (s : List Char) : Option (Option Nat × List Char) :=
  match s with
  | [] => some (none, [])
  | c :: rest =>
    if c ≠ '\x1b' then some (none, c :: rest)
    else
      match rest with
      | [] => some (none, [])
      | c2 :: rest2 =>
        if c2 ≠ '[' then some (none, rest2)
        else
          if rest2.head? = some e ∨ rest2.head? = none then some (some 0, rest2)
          else
            let ds := rest2.takeWhile (fun x => x ≠ e)
            let rest3 := (rest2.dropWhile (fun x => x ≠ e)).tail
            match parseUsize ds with
            | some n => some (some n, rest3)
            | none => none

/-- the push closure of escape_chars_to_styling: a run with the current
bold/underline attribute state (color is never set there). -/
def mkRun (text : List Char) (bold underline : Bool) : MixedTextContent :=
  { text := text,
    weight := if bold then Weight.Bold else Weight.Normal,
    decoration := if underline then TextDecoration.Underline else TextDecoration.None }

/-- the attribute-state update of escape_chars_to_styling for an SGR
parameter x: 0 and 22 reset both flags, 1 sets bold, 4 sets underline,
24 clears underline, anything else is silently ignored. -/
def updateAttrs (x : Nat) (bold underline : Bool) : Bool × Bool :=
  if x = 0 ∨ x = 22 then (false, false)
  else if x = 1 then (true, underline)
  else if x = 4 then (bold, true)
  else if x = 24 then (bold, false)
  else (bold, underline)

/-- the main loop of escape_chars_to_styling, with fuel.  Each iteration
either recognizes a sequence (find_sgr consumes at least two characters),
consumes one plain character into the pending text, or hits the end of input
and emits the pending text if non-empty; so fuel = stream length + 1 always
suffices.  A find_sgr panic propagates as none. -/
def escLoopF : Nat → List Char → List Char → Bool → Bool → Option (List MixedTextContent)
  | 0, _, _, _, _ => none
  | n + 1, s, text, bold, underline =>
    match find_sgr 'm' s with
    | none => none
    | some (some x, s') =>
      let p := updateAttrs x bold underline
      (escLoopF n s' [] p.1 p.2).map (fun runs => mkRun text bold underline :: runs)
    | some (none, s') =>
      match s' with
      | [] => some (if text.isEmpty then [] else [mkRun text bold underline])
      | c :: s'' => escLoopF n s'' (text ++ [c]) bold underline

/-- escape_chars_to_styling of examples/picker.rs: drives find_sgr with
terminator m over at most the first 4096 characters of the input, threading
the bold/underline state and emitting runs; none models a panic. -/
def escape_chars_to_styling (content : List Char) : Option (List MixedTextContent) :=
  escLoopF ((content.take 4096).length + 1) (content.take 4096) [] false false

/- ------------------------------------------------------------------ -/
/-  matches (examples/picker.rs)                                       -/
/- ------------------------------------------------------------------ -/

/-- str::find for a literal pattern: index of the first occurrence of q in
the haystack, if any. -/
def findSub (q : List Char) : List Char → Option Nat
  | [] => if q.isPrefixOf ([] : List Char) then some 0 else none
  | c :: rest =>
    if q.isPrefixOf (c :: rest) then some 0 else (findSub q rest).map (· + 1)

/-- the while-let loop of matches, with fuel, operating on the not yet
scanned suffix r of the key: each found occurrence emits the plain text
before it and the red/bold occurrence itself, then the scan resumes right
after the occurrence; when no further occurrence exists, a non-empty
remainder is emitted as one final plain span.  matches only calls it with a
non-empty query, so every iteration drops at least one character and
fuel = key length + 1 suffices. -/
def matchesLoopF : Nat → List Char → List Char → List MixedTextContent
  | 0, _, _ => []
  | n + 1, q, r =>
    match findSub q r with
    | some pos =>
      MixedTextContent.new (r.take pos) ::
        ((MixedTextContent.new ((r.drop pos).take q.length)).withColor
            Color.Red).withWeight Weight.Bold ::
        matchesLoopF n q (r.drop (pos + q.length))
    | none => if r.isEmpty then [] else [MixedTextContent.new r]

/-- matches of examples/picker.rs (matches is a reserved word in Lean, hence the Fn suffix): an empty query trivially matches as one
plain span holding the whole key; otherwise the occurrence loop runs and the
result counts as a match only when more than one span was produced (i.e. at
least one occurrence was found). -/
def matchesFn (key query : List Char) : Option (List MixedTextContent) :=
  if query.isEmpty then some [MixedTextContent.new key]
  else
    let elms := matchesLoopF (key.length + 1) query key
    if 1 < elms.length then some elms else none

/-- a man page entry: key and title, as produced by parse_man_output. -/
structure ManPage where
  key : List Char
  title : List Char
deriving DecidableEq, Repr

/-- the elms use_memo of the Picker component: each page whose title matches
the prompt contributes its key paired with the match spans; pages without a
match are filtered out. -/
def pickerElms (pages : List ManPage) (query : List Char) :
    List (List Char × List MixedTextContent) :=
  pages.filterMap (fun page => (matchesFn page.title query).map (fun x => (page.key, x)))

/- ------------------------------------------------------------------ -/
/-  Results navigation and scroll offset (examples/picker.rs)          -/
/- ------------------------------------------------------------------ -/

/-- the KeyCode::Up and ctrl-u handlers of the Results component:
(current_idx as isize - k).rem_euclid(nprops as isize) as usize.
Int.emod agrees with Rust's rem_euclid for a positive divisor; rem_euclid
with divisor 0 panics in Rust, modelled as none. -/
def navUpBy (k sel n : Nat) : Option Nat :=
  if n = 0 then none
  else some ((((sel : Int) - (k : Int)) % (n : Int)).toNat)

/-- the KeyCode::Down and ctrl-d handlers of the Results component:
(current_idx + k) % nprops in usize arithmetic; the remainder with divisor 0
panics in Rust, modelled as none. -/
def navDownBy (k sel n : Nat) : Option Nat :=
  if n = 0 then none else some ((sel + k) % n)

/-- the beginning (scroll offset) recomputation at the top of the Results
component: pull the window up to the selection when it moved above the
window, push it down when the selection moved below the last visible row,
otherwise keep it. -/
def recomputeOffset (beginning current_idx height : Nat) : Nat :=
  if beginning > current_idx then current_idx
  else if current_idx > beginning + height - 1 then current_idx - height + 1
  else beginning

/- ------------------------------------------------------------------ -/
/-  strip_ansi (packages/iocraft/src/strip_ansi.rs)                    -/
/- ------------------------------------------------------------------ -/

/-- intermediate characters admitted between the CSI introducer and its
parameters by the pattern, the class with bracket, parenthesis, hash,
semicolon and question mark. -/
def isInterm (c : Char) : Bool :=
  c = '[' || c = ']' || c = '(' || c = ')' || c = '#' || c = ';' || c = '?'

/-- final bytes of a CSI sequence admitted by the pattern, the class with
digits, A-P, R-T, Z, c, f-n, q-u, y and the four symbols. -/
def finalByte (c : Char) : Bool :=
  c.isDigit || ('A' ≤ c && c ≤ 'P') || ('R' ≤ c && c ≤ 'T') || c = 'Z' || c = 'c'
    || ('f' ≤ c && c ≤ 'n') || ('q' ≤ c && c ≤ 'u') || c = 'y'
    || c = '=' || c = '>' || c = '<' || c = '~'

/-- single final characters of the short two-character escapes branch of the
pattern (cursor, mode, charset-shift, reset and report keys). -/
def shortFinal (c : Char) : Bool :=
  c = 'A' || c = 'B' || c = 'C' || c = 'D' || c = 'H' || c = 'I' || c = 'K'
    || c = 'J' || c = 'S' || c = 'T' || c = 'Z' || c = '=' || c = '>' || c = '<'
    || c = 's' || c = 'u' || c = 'm' || c = '7' || c = '8' || c = 'E' || c = 'M'
    || c = 'c' || c = 'N' || c = 'O'

/-- body of the operating-system-command branch after its two-character
opener: a lazy run of characters other than BEL, ESC and ST, closed by BEL,
by ESC backslash or by ST.  At every position the lazy star first tries the
three terminators and only then consumes one more body character; since the
body class excludes exactly the bytes that can open a terminator, the search
is deterministic, and an ESC not followed by a backslash dead-ends the whole
branch.  Returns the stream after the terminator. -/
def oscBody : List Char → Option (List Char)
  | [] => none
  | c :: rest =>
    if c = '\x07' then some rest
    else if c = '\x9c' then some rest
    else if c = '\x1b' then
      match rest with
      | '\\' :: r2 => some r2
      | _ => none
    else oscBody rest

/-- the operating-system-command branch of the pattern. -/
def oscAlt : List Char → Option (List Char)
  | c :: c2 :: rest => if c = '\x1b' ∧ c2 = ']' then oscBody rest else none
  | _ => none

/-- the final byte at the current position, the tail of every CSI parse. -/
def csiFinal : List Char → Option (List Char)
  | c :: rest => if finalByte c then some rest else none
  | [] => none

/- Backtracking parse of the CSI parameter continuation, following
leftmost-first (backtracking) semantics.  csiStarF parses the greedy star of
parameter groups, each a semicolon or colon followed by up to four digits,
and then the final byte; csiRepF j tries to close the current group with j
digits first and backtracks to fewer.  Fuel is structural; every six fuel
steps consume at least one character, so the fuel passed by csiAfterIntro is
always sufficient. -/
mutual
def csiStarF : Nat → List Char → Option (List Char)
  | 0, _ => none
  | _ + 1, [] => none
  | n + 1, c :: rest =>
    if c = ';' ∨ c = ':' then
      (csiRepF n (min 4 ((rest.takeWhile Char.isDigit).length)) rest).orElse
        (fun _ => csiFinal (c :: rest))
    else csiFinal (c :: rest)

def csiRepF : Nat → Nat → List Char → Option (List Char)
  | 0, _, _ => none
  | n + 1, 0, rest => csiStarF n rest
  | n + 1, j + 1, rest =>
    (csiStarF n (rest.drop (j + 1))).orElse (fun _ => csiRepF n j rest)
end

/-- greedy parse of the leading one-to-four-digit parameter run: try j digits
first, backtracking down to one digit, each time continuing with the star of
further parameter groups. -/
def tryFromF (n : Nat) : Nat → List Char → Option (List Char)
  | 0, _ => none
  | j + 1, s => (csiStarF n (s.drop (j + 1))).orElse (fun _ => tryFromF n j s)

/-- continuation of both CSI branches after their introducer: a greedy run of
intermediate characters (none of which can serve as digit or final byte, so
no successful backtrack into it exists), then the optional parameter part --
preferred, as the group is greedy -- and the final byte. -/
def csiAfterIntro (s : List Char) : Option (List Char) :=
  let s1 := s.dropWhile isInterm
  (tryFromF (6 * s1.length + 12) (min 4 ((s1.takeWhile Char.isDigit).length)) s1).orElse
    (fun _ => csiFinal s1)

/-- the seven-bit control-sequence-introducer branch of the pattern. -/
def csi7Alt : List Char → Option (List Char)
  | c :: c2 :: rest => if c = '\x1b' ∧ c2 = '[' then csiAfterIntro rest else none
  | _ => none

/-- the eight-bit (single-byte CSI) branch of the pattern. -/
def csi8Alt : List Char → Option (List Char)
  | c :: rest => if c = '\x9b' then csiAfterIntro rest else none
  | [] => none

/-- the short two-character escapes branch of the pattern. -/
def shortAlt : List Char → Option (List Char)
  | c :: c2 :: rest => if c = '\x1b' ∧ shortFinal c2 then some rest else none
  | _ => none

/-- the charset-selection branch of the pattern: ESC, an opening or closing
parenthesis, then one of A B 0 1 2. -/
def charsetAlt : List Char → Option (List Char)
  | c :: p :: x :: rest =>
    if c = '\x1b' ∧ (p = '(' ∨ p = ')') ∧ (x = 'A' ∨ x = 'B' ∨ x = '0' ∨ x = '1' ∨ x = '2')
    then some rest else none
  | _ => none

/-- the hash branch of the pattern: ESC, hash, then one of 3 4 5 6 8. -/
def hashAlt : List Char → Option (List Char)
  | c :: h :: x :: rest =>
    if c = '\x1b' ∧ h = '#' ∧ (x = '3' ∨ x = '4' ∨ x = '5' ∨ x = '6' ∨ x = '8')
    then some rest else none
  | _ => none

/-- the fallback branch of the pattern: ESC, a non-empty greedy digit run,
then the letter n (deterministic, since n is not a digit no backtrack into
the run can succeed). -/
def digitsNAlt : List Char → Option (List Char)
  | c :: rest =>
    if c = '\x1b' then
      let d := rest.takeWhile Char.isDigit
      if d.isEmpty then none
      else
        match rest.drop d.length with
        | 'n' :: r => some r
        | _ => none
    else none
  | [] => none

/-- one attempt of the whole alternation at the current position, trying the
six branches in the order they are concatenated in ANSI_REGEX_PATTERN
(leftmost-first alternation semantics of the regex crate); returns the stream
after the match. -/
def matchAnsi (s : List Char) : Option (List Char) :=
  (oscAlt s).orElse fun _ =>
    (csi7Alt s).orElse fun _ =>
      (csi8Alt s).orElse fun _ =>
        (shortAlt s).orElse fun _ =>
          (charsetAlt s).orElse fun _ =>
            (hashAlt s).orElse fun _ => digitsNAlt s

/-- Regex::replace_all with the empty replacement: a single left-to-right
sweep removing each successive leftmost match and resuming right after it.
Every match consumes at least two characters and a failed position passes one
character through, so fuel = input length + 1 suffices. -/
def stripScanF : Nat → List Char → List Char
  | 0, _ => []
  | _ + 1, [] => []
  | n + 1, c :: rest =>
    match matchAnsi (c :: rest) with
    | some rest' => stripScanF n rest'
    | none => c :: stripScanF n rest

/-- strip_ansi of packages/iocraft/src/strip_ansi.rs. -/
def strip_ansi (s : List Char) : List Char :=
  stripScanF (s.length + 1) s

/- ------------------------------------------------------------------ -/
/-  Spec-side definitions used to state the claims                     -/
/- ------------------------------------------------------------------ -/

/-- the one step of removing recognized style sequences, with fuel (fuel =
length + 1 always suffices since each step consumes at least one character).
Written from the words of the claim, for comparison with the builder: a
recognized control sequence is an introducer, a bracket, an optional run of
ASCII digits and the terminator m; such a sequence is removed whole,
every other character is kept. -/
def spec_removeSGRF : Nat → List Char → List Char
  | 0, _ => []
  | _ + 1, [] => []
  | n + 1, c :: rest =>
    if c = '\x1b' ∧ rest.head? = some '[' ∧
        ((rest.tail.dropWhile Char.isDigit).head? = some 'm') then
      spec_removeSGRF n ((rest.tail.dropWhile Char.isDigit).tail)
    else c :: spec_removeSGRF n rest

/-- the input with every recognized control sequence removed, in the words of
the claim and of section 4.1 of the spec. -/
def spec_removeSGR (s : List Char) : List Char :=
  spec_removeSGRF (s.length + 1) s

/-- states of the scanner that checks an input for well-formed style
sequences: outside any sequence, after the introducer, after the bracket,
inside the digit run (carrying the accumulated value). -/
inductive SgrSt where
  | out
  | esc
  | br
  | dig (acc : Nat)

/-- scanner deciding that every introducer character in the input opens a
complete sequence of the shape introducer, bracket, non-empty all-digit
parameter run with value below 2 to the 64, terminator m.  On such inputs the
tokenizer never panics, never loses a failed lookahead and always consumes
whole sequences, which isolates the regime in which the run-builder
guarantee of the claim holds. -/
def wfSGRscan : SgrSt → List Char → Bool
  | .out, [] => true
  | _, [] => false
  | .out, c :: rest => if c = '\x1b' then wfSGRscan .esc rest else wfSGRscan .out rest
  | .esc, c :: rest => if c = '[' then wfSGRscan .br rest else false
  | .br, c :: rest =>
    if c.isDigit then wfSGRscan (.dig (c.toNat - 48)) rest else false
  | .dig acc, c :: rest =>
    if c.isDigit then wfSGRscan (.dig (acc * 10 + (c.toNat - 48))) rest
    else if c = 'm' then decide (acc < 2 ^ 64) && wfSGRscan .out rest
    else false

/-- an input is well-formed when the scanner accepts it from the outside
state. -/
def wfSGR (s : List Char) : Bool :=
  wfSGRscan .out s

/-- no character of the string is a sequence introducer byte (neither the
escape character nor the single-byte CSI). -/
def noIntro (s : List Char) : Bool :=
  s.all (fun c => c ≠ '\x1b' && c ≠ '\x9b')

/- ------------------------------------------------------------------ -/
/-  Helper lemmas                                                      -/
/- ------------------------------------------------------------------ -/

lemma isDigit_ne_m {c : Char} (h : c.isDigit = true) : c ≠ 'm' := by
  intro hc; subst hc; simp [Char.isDigit] at h

lemma isDigit_ne_plus {c : Char} (h : c.isDigit = true) : c ≠ '+' := by
  intro hc; subst hc; simp [Char.isDigit] at h

lemma takeWhile_append_cons {p : Char → Bool} :
    ∀ (ds : List Char) (x : Char) (t : List Char),
      (∀ c ∈ ds, p c = true) → p x = false →
      (ds ++ x :: t).takeWhile p = ds ∧ (ds ++ x :: t).dropWhile p = x :: t := by
  intro ds
  induction ds with
  | nil =>
    intro x t _ hx
    simp [List.takeWhile, List.dropWhile, hx]
  | cons c ds ih =>
    intro x t hall hx
    have hc : p c = true := hall c (by simp)
    have h2 := ih x t (fun d hd => hall d (by simp [hd])) hx
    simp [List.takeWhile, List.dropWhile, hc, h2.1, h2.2]

lemma concatTexts_nil : concatTexts [] = [] := rfl

lemma concatTexts_cons (r : MixedTextContent) (runs : List MixedTextContent) :
    concatTexts (r :: runs) = r.text ++ concatTexts runs := rfl

/- computation lemmas for find_sgr -/

lemma find_sgr_nil (e : Char) : find_sgr e [] = some (none, []) := rfl

lemma find_sgr_not_esc (e c : Char) (rest : List Char) (h : c ≠ '\x1b') :
    find_sgr e (c :: rest) = some (none, c :: rest) := by
  simp [find_sgr, h]

lemma find_sgr_bad_bracket (e c : Char) (rest : List Char) (h : c ≠ '[') :
    find_sgr e ('\x1b' :: c :: rest) = some (none, rest) := by
  simp [find_sgr, h]

lemma find_sgr_terminator (e : Char) (rest : List Char) :
    find_sgr e ('\x1b' :: '[' :: e :: rest) = some (some 0, e :: rest) := by
  simp [find_sgr]

lemma parseUsize_digits (ds : List Char) (hne : ds ≠ [])
    (hdig : ∀ c ∈ ds, c.isDigit = true) (hval : digitsToNat ds < 2 ^ 64) :
    parseUsize ds = some (digitsToNat ds) := by
  match ds, hne with
  | d :: ds', _ =>
    have hd : d.isDigit = true := hdig d (by simp)
    have ht : (if (d :: ds').head? = some '+' then (d :: ds').tail else d :: ds') = d :: ds' := by
      rw [if_neg]
      simp only [List.head?_cons, Option.some.injEq]
      exact isDigit_ne_plus hd
    simp only [parseUsize]
    rw [ht]
    rw [if_pos ⟨by simp, by simpa using hdig, hval⟩]

lemma find_sgr_digits (e : Char) (ds rest : List Char) (hne : ds ≠ [])
    (hdig : ∀ c ∈ ds, c.isDigit = true) (hnotE : ∀ c ∈ ds, c ≠ e)
    (hval : digitsToNat ds < 2 ^ 64) :
    find_sgr e ('\x1b' :: '[' :: (ds ++ e :: rest)) =
      some (some (digitsToNat ds), rest) := by
  match ds, hne with
  | d :: ds', _ =>
    have hd : d.isDigit = true := hdig d (by simp)
    have hde : d ≠ e := hnotE d (by simp)
    have htw := takeWhile_append_cons (p := fun x => decide (x ≠ e)) (d :: ds') e rest
      (fun c hc => by simpa using hnotE c hc) (by simp)
    have hparse : parseUsize (d :: ds') = some (digitsToNat (d :: ds')) :=
      parseUsize_digits (d :: ds') (by simp) hdig hval
    simp only [find_sgr]
    rw [if_neg (by simp : ¬('\x1b' : Char) ≠ '\x1b')]
    rw [if_neg (by simp : ¬('[' : Char) ≠ '[')]
    rw [if_neg (by simp [hde] :
      ¬((d :: ds' ++ e :: rest).head? = some e ∨ (d :: ds' ++ e :: rest).head? = none))]
    rw [htw.1, htw.2]
    simp [hparse]

/- fuel irrelevance and unfolding lemmas for the spec-side removal -/

lemma spec_removeSGRF_irrel : ∀ (n m : Nat) (s : List Char), s.length < n → s.length < m →
    spec_removeSGRF n s = spec_removeSGRF m s := by
  intro n
  induction n with
  | zero => intro m s h _; omega
  | succ n ih =>
    intro m s h1 h2
    match m, h2 with
    | m + 1, h2 =>
      match s with
      | [] => rfl
      | c :: rest =>
        simp only [spec_removeSGRF]
        have htl : rest.tail.length ≤ rest.length := by cases rest <;> simp
        have hdw : (rest.tail.dropWhile Char.isDigit).length ≤ rest.tail.length :=
          (List.dropWhile_sublist _).length_le
        have htl2 : ((rest.tail.dropWhile Char.isDigit).tail).length ≤
            (rest.tail.dropWhile Char.isDigit).length := by
          cases h : rest.tail.dropWhile Char.isDigit <;> simp
        simp only [List.length_cons] at h1 h2
        by_cases hcond : c = '\x1b' ∧ rest.head? = some '[' ∧
            ((rest.tail.dropWhile Char.isDigit).head? = some 'm')
        · rw [if_pos hcond, if_pos hcond]
          exact ih m _ (by omega) (by omega)
        · rw [if_neg hcond, if_neg hcond]
          rw [ih m rest (by omega) (by omega)]

lemma spec_removeSGR_nil : spec_removeSGR [] = [] := rfl

lemma spec_removeSGR_cons_plain (c : Char) (rest : List Char) (h : c ≠ '\x1b') :
    spec_removeSGR (c :: rest) = c :: spec_removeSGR rest := by
  simp only [spec_removeSGR, List.length_cons, spec_removeSGRF]
  rw [if_neg (by simp [h])]

lemma spec_removeSGR_seq (ds rest3 : List Char) (hdig : ∀ c ∈ ds, c.isDigit = true) :
    spec_removeSGR ('\x1b' :: '[' :: (ds ++ 'm' :: rest3)) = spec_removeSGR rest3 := by
  have hdw := (takeWhile_append_cons (p := Char.isDigit) ds 'm' rest3 hdig (by decide)).2
  simp only [spec_removeSGR, List.length_cons, spec_removeSGRF]
  rw [if_pos (by simp [hdw])]
  simp only [List.tail_cons, hdw, List.tail_cons]
  apply spec_removeSGRF_irrel
  · simp [List.length_append]; omega
  · omega

/- well-formedness decomposition and the run-concatenation lemma -/

lemma wfSGR_cons_plain (c : Char) (rest : List Char) (h : c ≠ '\x1b') :
    wfSGR (c :: rest) = wfSGR rest := by
  simp [wfSGR, wfSGRscan, h]

lemma wf_dig_decomp : ∀ (t : List Char) (acc : Nat), wfSGRscan (.dig acc) t = true →
    ∃ ds rest3, t = ds ++ 'm' :: rest3 ∧ (∀ c ∈ ds, c.isDigit = true) ∧
      List.foldl (fun a c => a * 10 + (c.toNat - 48)) acc ds < 2 ^ 64 ∧
      wfSGR rest3 = true := by
  intro t
  induction t with
  | nil => intro acc h; simp [wfSGRscan] at h
  | cons c rest ih =>
    intro acc h
    simp only [wfSGRscan] at h
    by_cases hd : c.isDigit
    · rw [if_pos hd] at h
      obtain ⟨ds, rest3, ht, hds, hacc, hwf⟩ := ih _ h
      refine ⟨c :: ds, rest3, by simp [ht], ?_, by simpa using hacc, hwf⟩
      intro x hx
      rcases List.mem_cons.mp hx with h1 | h2
      · subst h1; exact hd
      · exact hds x h2
    · rw [if_neg hd] at h
      by_cases hm : c = 'm'
      · rw [if_pos hm] at h
        simp only [Bool.and_eq_true, decide_eq_true_eq] at h
        exact ⟨[], rest, by simp [hm], by simp, by simpa using h.1, h.2⟩
      · rw [if_neg hm] at h
        simp at h

lemma wf_esc_decomp (rest : List Char) (h : wfSGR ('\x1b' :: rest) = true) :
    ∃ ds rest3, rest = '[' :: (ds ++ 'm' :: rest3) ∧ ds ≠ [] ∧
      (∀ c ∈ ds, c.isDigit = true) ∧ digitsToNat ds < 2 ^ 64 ∧ wfSGR rest3 = true := by
  have h1 : wfSGRscan SgrSt.esc rest = true := by
    simpa [wfSGR, wfSGRscan] using h
  match rest with
  | [] => simp [wfSGRscan] at h1
  | c2 :: rest2 =>
    simp only [wfSGRscan] at h1
    by_cases hc2 : c2 = '['
    · subst hc2
      rw [if_pos rfl] at h1
      match rest2 with
      | [] => simp [wfSGRscan] at h1
      | c3 :: rest2' =>
        simp only [wfSGRscan] at h1
        by_cases hd3 : c3.isDigit
        · rw [if_pos hd3] at h1
          obtain ⟨ds', rest3, ht, hds, hacc, hwf⟩ := wf_dig_decomp rest2' _ h1
          refine ⟨c3 :: ds', rest3, by simp [ht], by simp, ?_, ?_, hwf⟩
          · intro x hx
            rcases List.mem_cons.mp hx with hx1 | hx2
            · subst hx1; exact hd3
            · exact hds x hx2
          · simpa [digitsToNat] using hacc
        · rw [if_neg hd3] at h1
          simp at h1
    · rw [if_neg hc2] at h1
      simp at h1

lemma escLoopF_wf : ∀ (n : Nat) (s text : List Char) (bold underline : Bool),
    s.length < n → wfSGR s = true →
    ∃ runs, escLoopF n s text bold underline = some runs ∧
      concatTexts runs = text ++ spec_removeSGR s := by
  intro n
  induction n with
  | zero => intro s _ _ _ h _; omega
  | succ n ih =>
    intro s text bold underline hlen hwf
    match s with
    | [] =>
      refine ⟨if text.isEmpty then [] else [mkRun text bold underline], ?_, ?_⟩
      · simp [escLoopF, find_sgr]
      · by_cases ht : text.isEmpty
        · simp [ht, concatTexts, spec_removeSGR_nil, List.isEmpty_iff.mp ht]
        · simp [ht, concatTexts, mkRun, spec_removeSGR_nil]
    | c :: rest =>
      by_cases hc : c = '\x1b'
      · subst hc
        obtain ⟨ds, rest3, hrest, hne, hdig, hval, hwf3⟩ := wf_esc_decomp rest hwf
        subst hrest
        have hfind := find_sgr_digits 'm' ds rest3 hne hdig
          (fun c hc => isDigit_ne_m (hdig c hc)) hval
        have hlen3 : rest3.length < n := by
          simp only [List.length_cons, List.length_append] at hlen ⊢; omega
        obtain ⟨runs, hr, hcat⟩ := ih rest3 []
          (updateAttrs (digitsToNat ds) bold underline).1
          (updateAttrs (digitsToNat ds) bold underline).2 hlen3 hwf3
        refine ⟨mkRun text bold underline :: runs, ?_, ?_⟩
        · simp [escLoopF, hfind, hr]
        · rw [concatTexts_cons, hcat, spec_removeSGR_seq ds rest3 hdig]
          simp [mkRun]
      · have hfind : find_sgr 'm' (c :: rest) = some (none, c :: rest) :=
          find_sgr_not_esc 'm' c rest hc
        have hwfr : wfSGR rest = true := by
          rw [← wfSGR_cons_plain c rest hc]; exact hwf
        have hlenr : rest.length < n := by
          simp only [List.length_cons] at hlen; omega
        obtain ⟨runs, hr, hcat⟩ := ih rest (text ++ [c]) bold underline hlenr hwfr
        refine ⟨runs, ?_, ?_⟩
        · simp only [escLoopF, hfind]; exact hr
        · rw [hcat, spec_removeSGR_cons_plain c rest hc]
          simp

/- lemmas about findSub and the matches loop -/

lemma findSub_bound : ∀ (r q : List Char) (pos : Nat), findSub q r = some pos →
    pos + q.length ≤ r.length := by
  intro r
  induction r with
  | nil =>
    intro q pos h
    simp only [findSub] at h
    by_cases hp : q.isPrefixOf ([] : List Char)
    · rw [if_pos hp] at h
      have hq : q = [] := List.prefix_nil.mp (List.isPrefixOf_iff_prefix.mp hp)
      cases h
      simp [hq]
    · rw [if_neg hp] at h
      cases h
  | cons c rest ih =>
    intro q pos h
    simp only [findSub] at h
    by_cases hp : q.isPrefixOf (c :: rest)
    · rw [if_pos hp] at h
      cases h
      simpa using (List.isPrefixOf_iff_prefix.mp hp).length_le
    · rw [if_neg hp] at h
      cases hf : findSub q rest with
      | none => rw [hf] at h; simp at h
      | some p' =>
        rw [hf] at h
        simp only [Option.map_some', Option.some.injEq] at h
        have := ih q p' hf
        simp only [List.length_cons]
        omega

lemma findSub_isSome_iff : ∀ (r q : List Char), (findSub q r).isSome = true ↔ q <:+: r := by
  intro r
  induction r with
  | nil =>
    intro q
    simp only [findSub]
    by_cases hp : q.isPrefixOf ([] : List Char)
    · rw [if_pos hp]
      simp [List.prefix_nil.mp (List.isPrefixOf_iff_prefix.mp hp)]
    · rw [if_neg hp]
      constructor
      · intro h; simp at h
      · intro hinf
        have hq : q = [] := by simpa using hinf
        exact absurd (by simp [hq] : q.isPrefixOf ([] : List Char) = true) hp
  | cons c rest ih =>
    intro q
    simp only [findSub]
    by_cases hp : q.isPrefixOf (c :: rest)
    · rw [if_pos hp]
      simp [(List.isPrefixOf_iff_prefix.mp hp).isInfix]
    · rw [if_neg hp]
      rw [List.infix_cons_iff]
      have hnp : ¬ q <+: c :: rest := fun hh => hp (List.isPrefixOf_iff_prefix.mpr hh)
      simp [hnp, ← ih q]

lemma matchesLoopF_concat : ∀ (n : Nat) (q r : List Char), q ≠ [] → r.length < n →
    concatTexts (matchesLoopF n q r) = r := by
  intro n
  induction n with
  | zero => intro q r _ h; omega
  | succ n ih =>
    intro q r hq hlen
    cases hf : findSub q r with
    | none =>
      simp only [matchesLoopF, hf]
      by_cases hr : r.isEmpty
      · simp [List.isEmpty_iff.mp hr, concatTexts]
      · simp [hr, concatTexts, MixedTextContent.new]
    | some pos =>
      have hb := findSub_bound r q pos hf
      have hq1 : 1 ≤ q.length := by
        cases q with
        | nil => simp at hq
        | cons a b => simp
      have hlt : (r.drop (pos + q.length)).length < n := by
        simp only [List.length_drop]
        omega
      simp only [matchesLoopF, hf]
      rw [concatTexts_cons, concatTexts_cons, ih q _ hq hlt]
      simp [MixedTextContent.new, MixedTextContent.withColor, MixedTextContent.withWeight]

lemma matchesFn_some_concat (key query : List Char) (spans : List MixedTextContent)
    (h : matchesFn key query = some spans) : concatTexts spans = key := by
  by_cases hq : query.isEmpty
  · simp only [matchesFn, if_pos hq] at h
    cases h
    simp [concatTexts, MixedTextContent.new]
  · simp only [matchesFn, if_neg hq] at h
    by_cases hl : 1 < (matchesLoopF (key.length + 1) query key).length
    · rw [if_pos hl] at h
      cases h
      refine matchesLoopF_concat (key.length + 1) query key ?_ (by omega)
      intro hqe
      exact hq (by simp [hqe])
    · rw [if_neg hl] at h
      cases h

lemma matchesFn_none_of_no_occ (key query : List Char) (hq : query.isEmpty = false)
    (hf : findSub query key = none) : matchesFn key query = none := by
  simp only [matchesFn, if_neg (by simp [hq] : ¬ query.isEmpty = true)]
  have hone : matchesLoopF (key.length + 1) query key =
      if key.isEmpty then [] else [MixedTextContent.new key] := by
    simp [matchesLoopF, hf]
  rw [hone]
  by_cases hk : key.isEmpty
  · simp [hk]
  · simp [hk]

lemma matchesFn_isSome_of_occ (key query : List Char) (hq : query.isEmpty = false)
    (pos : Nat) (hf : findSub query key = some pos) :
    ∃ spans, matchesFn key query = some spans := by
  simp only [matchesFn, if_neg (by simp [hq] : ¬ query.isEmpty = true)]
  have hlen : 1 < (matchesLoopF (key.length + 1) query key).length := by
    simp [matchesLoopF, hf]
  rw [if_pos hlen]
  exact ⟨_, rfl⟩

/- lemmas about the strip filter -/

lemma matchAnsi_none (c : Char) (rest : List Char) (h1 : c ≠ '\x1b') (h2 : c ≠ '\x9b') :
    matchAnsi (c :: rest) = none := by
  have hosc : oscAlt (c :: rest) = none := by
    match rest with
    | [] => rfl
    | c2 :: rest2 => simp [oscAlt, h1]
  have hcsi7 : csi7Alt (c :: rest) = none := by
    match rest with
    | [] => rfl
    | c2 :: rest2 => simp [csi7Alt, h1]
  have hcsi8 : csi8Alt (c :: rest) = none := by simp [csi8Alt, h2]
  have hshort : shortAlt (c :: rest) = none := by
    match rest with
    | [] => rfl
    | c2 :: rest2 => simp [shortAlt, h1]
  have hcharset : charsetAlt (c :: rest) = none := by
    match rest with
    | [] => rfl
    | [c2] => rfl
    | c2 :: c3 :: rest3 => simp [charsetAlt, h1]
  have hhash : hashAlt (c :: rest) = none := by
    match rest with
    | [] => rfl
    | [c2] => rfl
    | c2 :: c3 :: rest3 => simp [hashAlt, h1]
  have hdign : digitsNAlt (c :: rest) = none := by simp [digitsNAlt, h1]
  simp [matchAnsi, hosc, hcsi7, hcsi8, hshort, hcharset, hhash, hdign, Option.orElse]

lemma stripScanF_noIntro : ∀ (n : Nat) (s : List Char), noIntro s = true → s.length < n →
    stripScanF n s = s := by
  intro n
  induction n with
  | zero => intro s _ h; omega
  | succ n ih =>
    intro s hno hlen
    match s with
    | [] => rfl
    | c :: rest =>
      simp only [noIntro, List.all_cons, Bool.and_eq_true, decide_eq_true_eq] at hno
      simp only [stripScanF, matchAnsi_none c rest hno.1.1 hno.1.2]
      rw [ih rest (by unfold noIntro; exact hno.2) (by simp only [List.length_cons] at hlen; omega)]

/- ------------------------------------------------------------------ -/
/-  Claim theorems                                                     -/
/- ------------------------------------------------------------------ -/

/-- C1, counterexample: on the input consisting of the sequence with an empty
parameter run (escape, bracket, terminator m) the builder emits the terminator
as literal text, so the concatenation of the run texts is m while the input
with the recognized sequence removed is empty.  The claim as stated is false. -/
theorem c1_counterexample_empty_param_sequence :
    (escape_chars_to_styling ['\x1b', '[', 'm']).map concatTexts = some ['m'] ∧
    spec_removeSGR ['\x1b', '[', 'm'] = [] ∧ (['m'] : List Char) ≠ [] := by
  refine ⟨by decide, by decide, by decide⟩

/-- C1, amended: for inputs of at most 4096 characters in which every
introducer character opens a complete sequence escape, bracket, non-empty
all-digit parameter run with value below 2 to the 64, terminator m -- any
parameter value, also ones outside the supported attribute set -- the
builder succeeds and concatenating the text fields of all emitted runs
equals the input with every recognized control sequence removed. -/
theorem c1_run_concat_eq_spec_strip_of_wf (s : List Char)
    (hlen : s.length ≤ 4096) (hwf : wfSGR s = true) :
    ∃ runs, escape_chars_to_styling s = some runs ∧
      concatTexts runs = spec_removeSGR s := by
  have htake : s.take 4096 = s := List.take_of_length_le hlen
  obtain ⟨runs, hr, hcat⟩ := escLoopF_wf (s.length + 1) s [] false false (by omega) hwf
  refine ⟨runs, ?_, by simpa using hcat⟩
  unfold escape_chars_to_styling
  rw [htake]
  exact hr

/-- C1, witness for the amended theorem at a concrete well-formed input. -/
theorem c1_run_concat_witness :
    (['\x1b', '[', '1', 'm', 'B'] : List Char).length ≤ 4096 ∧
    wfSGR ['\x1b', '[', '1', 'm', 'B'] = true ∧
    ∃ runs, escape_chars_to_styling ['\x1b', '[', '1', 'm', 'B'] = some runs ∧
      concatTexts runs = spec_removeSGR ['\x1b', '[', '1', 'm', 'B'] :=
  ⟨by decide, by decide,
    c1_run_concat_eq_spec_strip_of_wf ['\x1b', '[', '1', 'm', 'B'] (by decide) (by decide)⟩

/-- C2, counterexample: strip_ansi is not idempotent.  On the input escape,
escape, A, A the first pass removes the inner two-character escape and the
surviving outer escape joins the surviving A to form a new sequence that the
second pass removes. -/
theorem c2_strip_ansi_not_idempotent :
    strip_ansi ['\x1b', '\x1b', 'A', 'A'] = ['\x1b', 'A'] ∧
    strip_ansi (strip_ansi ['\x1b', '\x1b', 'A', 'A']) = [] ∧
    strip_ansi (strip_ansi ['\x1b', '\x1b', 'A', 'A']) ≠
      strip_ansi ['\x1b', '\x1b', 'A', 'A'] := by
  refine ⟨by decide, by decide, by decide⟩

/-- C2, amended: strip_ansi is idempotent on every input whose stripped
output contains no introducer byte (neither the escape character nor the
single-byte CSI); the justification sentence of the spec fails only because
a lone escape character can survive stripping. -/
theorem c2_strip_ansi_idempotent_of_no_introducer (s : List Char)
    (h : noIntro (strip_ansi s) = true) :
    strip_ansi (strip_ansi s) = strip_ansi s :=
  stripScanF_noIntro ((strip_ansi s).length + 1) (strip_ansi s) h (by omega)

/-- C2, witness for the amended theorem at a concrete input. -/
theorem c2_strip_ansi_idempotent_witness :
    noIntro (strip_ansi ['\x1b', '[', '3', '1', 'm', 'A', 'B']) = true ∧
    strip_ansi (strip_ansi ['\x1b', '[', '3', '1', 'm', 'A', 'B']) =
      strip_ansi ['\x1b', '[', '3', '1', 'm', 'A', 'B'] :=
  ⟨by decide, c2_strip_ansi_idempotent_of_no_introducer _ (by decide)⟩

/-- C3: the claim promises that no core component raises a fatal error, in
particular on multi-parameter sequences; but on the stream escape, bracket,
1, semicolon, 3, 1, m the tokenizer collects the run 1;31 and
digit.parse().unwrap() panics, which the model reports as none. -/
theorem c3_builder_panics_on_multi_param_sgr :
    escape_chars_to_styling ['\x1b', '[', '1', ';', '3', '1', 'm'] = none := by decide

/-- C4: the claim promises that with an empty list every navigation key is a
no-op; but with nprops = 0 all four handlers divide by zero (rem_euclid or
the remainder operator with divisor 0), a panic, reported as none by the
model, for single steps and ten-steps in both directions. -/
theorem c4_navigation_panics_on_empty_list :
    navUpBy 1 0 0 = none ∧ navUpBy 10 0 0 = none ∧
    navDownBy 1 0 0 = none ∧ navDownBy 10 0 0 = none := by decide

/-- C5, counterexample: on escape, bracket, m the tokenizer succeeds with
value 0 yet leaves the terminator m in the stream, so it has not consumed
the entire sequence as claimed. -/
theorem c5_find_sgr_leaves_terminator_on_empty_run :
    find_sgr 'm' ['\x1b', '[', 'm'] = some (some 0, ['m']) ∧
    (['m'] : List Char) ≠ [] := by
  refine ⟨by decide, by decide⟩

/-- C5, amended: on success with a non-empty digit run the tokenizer returns
the value of the run and consumes the whole sequence including the
terminator; with an empty digit run it returns 0 but consumes only the
introducer and the bracket, leaving the terminator unconsumed. -/
theorem c5_find_sgr_consumption_amended (e : Char) (ds rest : List Char) (hne : ds ≠ [])
    (hdig : ∀ c ∈ ds, c.isDigit = true) (hnotE : ∀ c ∈ ds, c ≠ e)
    (hval : digitsToNat ds < 2 ^ 64) :
    find_sgr e ('\x1b' :: '[' :: (ds ++ e :: rest)) =
      some (some (digitsToNat ds), rest) ∧
    find_sgr e ('\x1b' :: '[' :: e :: rest) = some (some 0, e :: rest) :=
  ⟨find_sgr_digits e ds rest hne hdig hnotE hval, find_sgr_terminator e rest⟩

/-- C5, witness for the amended theorem at a concrete sequence. -/
theorem c5_find_sgr_consumption_witness :
    find_sgr 'm' ['\x1b', '[', '3', '1', 'm', 'A'] =
      some (some (digitsToNat ['3', '1']), ['A']) ∧
    find_sgr 'm' ['\x1b', '[', 'm', 'A'] = some (some 0, ['m', 'A']) ∧
    digitsToNat ['3', '1'] = 31 :=
  ⟨(c5_find_sgr_consumption_amended 'm' ['3', '1'] ['A'] (by decide) (by decide)
      (by decide) (by decide)).1,
   (c5_find_sgr_consumption_amended 'm' ['3', '1'] ['A'] (by decide) (by decide)
      (by decide) (by decide)).2,
   by decide⟩

/-- C6: whenever matches returns a match, the concatenation of the text
fields of the returned spans equals the key exactly, for the empty-query
case and the occurrence case alike. -/
theorem c6_match_spans_concat_eq_key (key query : List Char)
    (spans : List MixedTextContent) (h : matchesFn key query = some spans) :
    concatTexts spans = key :=
  matchesFn_some_concat key query spans h

/-- C6, witness at the concrete example of the spec. -/
theorem c6_match_spans_concat_witness :
    ∃ spans, matchesFn ['x', 'a', 'b', 'x', 'a', 'b'] ['a', 'b'] = some spans ∧
      concatTexts spans = ['x', 'a', 'b', 'x', 'a', 'b'] := by
  have h : matchesFn ['x', 'a', 'b', 'x', 'a', 'b'] ['a', 'b'] = some
      [MixedTextContent.new ['x'],
       ((MixedTextContent.new ['a', 'b']).withColor Color.Red).withWeight Weight.Bold,
       MixedTextContent.new ['x'],
       ((MixedTextContent.new ['a', 'b']).withColor Color.Red).withWeight Weight.Bold] := by
    decide
  exact ⟨_, h, c6_match_spans_concat_eq_key _ _ _ h⟩

/-- C7: from item count 25, height 10, offset 0, selection 0, moving up by
one wraps the selection to 24 and the offset recomputation yields 15. -/
theorem c7_viewport_wrap_example :
    navUpBy 1 0 25 = some 24 ∧ recomputeOffset 0 24 10 = 15 := by decide

/-- C8: a non-empty query with no occurrence in the key yields no match --
distinct from the empty-query trivial match -- and such a page contributes
nothing to the filtered element list, while a key containing the query
yields a match. -/
theorem c8_no_occurrence_no_match (key : List Char) (c : Char) (qt : List Char) :
    (¬ (c :: qt) <:+: key → matchesFn key (c :: qt) = none) ∧
    ((c :: qt) <:+: key → ∃ spans, matchesFn key (c :: qt) = some spans) ∧
    (∀ (pages : List ManPage) (p : ManPage), matchesFn p.title (c :: qt) = none →
      pickerElms (p :: pages) (c :: qt) = pickerElms pages (c :: qt)) := by
  refine ⟨?_, ?_, ?_⟩
  · intro hni
    have hf : findSub (c :: qt) key = none := by
      cases hfs : findSub (c :: qt) key with
      | none => rfl
      | some p =>
        exact absurd ((findSub_isSome_iff key (c :: qt)).mp (by simp [hfs])) hni
    exact matchesFn_none_of_no_occ key (c :: qt) (by simp) hf
  · intro hinf
    have hs : (findSub (c :: qt) key).isSome = true :=
      (findSub_isSome_iff key (c :: qt)).mpr hinf
    cases hfs : findSub (c :: qt) key with
    | none => rw [hfs] at hs; simp at hs
    | some pos => exact matchesFn_isSome_of_occ key (c :: qt) (by simp) pos hfs
  · intro pages p hm
    simp [pickerElms, hm]

/-- C8, witness: a query with no occurrence is rejected and one with an
occurrence is accepted, at concrete inputs. -/
theorem c8_no_occurrence_witness :
    matchesFn ['a', 'b', 'c'] ['z', 'z'] = none ∧
    ∃ spans, matchesFn ['x', 'a', 'b', 'x', 'a', 'b'] ['a', 'b'] = some spans :=
  ⟨(c8_no_occurrence_no_match ['a', 'b', 'c'] 'z' ['z']).1 (by decide),
   (c8_no_occurrence_no_match ['x', 'a', 'b', 'x', 'a', 'b'] 'a' ['b']).2.1 (by decide)⟩

/-- C9: with an empty query, matches returns exactly one span whose text is
the whole key (also for the empty key) and whose highlighted flag is false. -/
theorem c9_empty_query_single_plain_span (key : List Char) :
    matchesFn key [] = some [MixedTextContent.new key] ∧
    (MixedTextContent.new key).text = key ∧
    (MixedTextContent.new key).highlighted = false :=
  ⟨rfl, rfl, rfl⟩

/-- C10: when the stream starts with the introducer followed by anything but
the bracket, find_sgr reports no sequence having consumed exactly those two
characters, and the builder continues after them so that neither reaches any
emitted run text (the next plain character is consumed into the pending text
in the same iteration). -/
theorem c10_failed_bracket_lookahead_consumes_two (e c : Char) (rest text : List Char)
    (bold underline : Bool) (n : Nat) (h : c ≠ '[') :
    find_sgr e ('\x1b' :: c :: rest) = some (none, rest) ∧
    escLoopF (n + 1) ('\x1b' :: c :: rest) text bold underline =
      (match rest with
       | [] => some (if text.isEmpty then [] else [mkRun text bold underline])
       | c2 :: s'' => escLoopF n s'' (text ++ [c2]) bold underline) := by
  refine ⟨find_sgr_bad_bracket e c rest h, ?_⟩
  simp only [escLoopF, find_sgr_bad_bracket 'm' c rest h]

/-- C10, witness at a concrete stream. -/
theorem c10_failed_bracket_witness :
    find_sgr 'm' ['\x1b', 'X', 'Y'] = some (none, ['Y']) ∧
    escLoopF 2 ['\x1b', 'X', 'Y'] [] false false = escLoopF 1 [] ['Y'] false false := by
  have h := c10_failed_bracket_lookahead_consumes_two 'm' 'X' ['Y'] [] false false 1
    (by decide)
  exact ⟨h.1, h.2⟩
